import Mathlib

/-!
Verification development for the `calc_rs` expression-compilation pipeline
(`src/scanning.rs`, `src/parsing.rs`, `src/evaluating.rs`, `src/error_handling.rs`).

Modelling conventions:
* Rust `f32` values are idealized as exact rationals `ℚ`.  Every concrete
  computation appearing in a theorem below stays in a range where `f32`
  arithmetic is exact (small integers, sums, products, integer powers), so the
  idealization is faithful there.  Real-valued transcendental operations
  (`sin`, `ln`, `sqrt`, ...) have no exact rational counterpart; they are
  modelled by the constant-zero function and are not used by any theorem.
* Rust function pointers stored inside expression nodes are defunctionalized:
  the originating enum (`Function`, `BinaryFunction`, `VariedFunction`) is
  stored in the node and its `call` method is applied at execution time, which
  is observationally the same program.
* Character classes (`is_numeric`, `is_alphabetic`, `is_whitespace`) are
  modelled by their ASCII restrictions; all inputs considered are ASCII.
* Rust `panic!` sites are modelled as a distinct `Failure.panicked` outcome,
  and the `unwrap` calls of `evaluate` by `Option`.
-/

namespace CalcRs

/-- Error kinds, from `src/error_handling.rs` (constructors carry the text the
Rust structs carry).  The `undefined` and `abrupt_end` kinds are used by
`src/parsing.rs` (`CalcError::undefined`, `CalcError::abrupt_end`) but their
declarations are missing from `src/error_handling.rs`; those two constructors
are modelled from the spec: `Undefined(name)` and `AbruptEnd`. -/
inductive CalcError where
  | character (content : String)
  | number (content : String)
  | operator (content : String)
  | did_not_expect (content : String)
  | could_not_find (content : String)
  | undefined (name : String)
  | abrupt_end
deriving DecidableEq, Repr

/-- A computation outcome that distinguishes returned `CalcError`s from Rust
`panic!`s (which abort instead of returning). -/
inductive Failure where
  | err (e : CalcError)
  | panicked (msg : String)
deriving DecidableEq, Repr

/-- `TokenKind`, from `src/scanning.rs`. -/
inductive TokenKind where
  | identifier
  | number
  | operator
  | punctuation
deriving DecidableEq, Repr

/-- `Token`, from `src/scanning.rs`. -/
structure Token where
  content : String
  kind : TokenKind
deriving DecidableEq, Repr

/-- `is_operator`, from `src/scanning.rs`. -/
def is_operator (c : Char) : Bool :=
  match c with
  | '+' | '-' | '*' | '/' | '^' | '=' => true
  | _ => false

/-- `is_punctuation`, from `src/scanning.rs`. -/
def is_punctuation (c : Char) : Bool :=
  match c with
  | '(' | ')' | ',' => true
  | _ => false

/-- `is_digit_or_dot`, from `src/scanning.rs` (`char::is_numeric` restricted
to ASCII digits). -/
def is_digit_or_dot (c : Char) : Bool :=
  c.isDigit || c == '.'

/-- One pull of `StringScanner::peel` (`src/scanning.rs`): the caller has
already skipped leading whitespace.  Returns `none` at end of input, otherwise
the next token and the remaining characters, or the `InvalidCharacter` error.
The four classes are tried in the source's order: maximal digit/dot run, one
operator character, one punctuation character, maximal alphabetic run. -/
def peel (cs : List Char) : Option (Except CalcError (Token × List Char)) :=
  match cs with
  | [] => none
  | c :: rest =>
    let num := cs.takeWhile is_digit_or_dot
    if num ≠ [] then
      some (.ok (⟨String.mk num, .number⟩, cs.dropWhile is_digit_or_dot))
    else if is_operator c then
      some (.ok (⟨String.mk [c], .operator⟩, rest))
    else if is_punctuation c then
      some (.ok (⟨String.mk [c], .punctuation⟩, rest))
    else
      let ident := cs.takeWhile Char.isAlpha
      if ident ≠ [] then
        some (.ok (⟨String.mk ident, .identifier⟩, cs.dropWhile Char.isAlpha))
      else
        some (.error (.character (String.mk [c])))

/-- The scanner's token sequence, with fuel bounding the number of pulls.
Each successful `peel` consumes at least one character, so fuel
`length + 1` (as supplied by `tokenize`) never runs out.  The sequence ends at
the first error: the Rust iterator would re-yield the same error on further
pulls and its only consumer, `parse`, stops at the first one. -/
def tokenizeAux : Nat → List Char → List (Except CalcError Token)
  | 0, _ => []
  | fuel + 1, cs =>
    match peel cs with
    | none => []
    | some (.error e) => [.error e]
    | some (.ok (t, rest)) => .ok t :: tokenizeAux fuel (rest.dropWhile Char.isWhitespace)

/-- `StringScanner` as a token-list producer: skip leading whitespace
(`StringScanner::new`), then repeatedly `peel` and skip whitespace
(`Iterator::next`), from `src/scanning.rs`. -/
def tokenize (s : String) : List (Except CalcError Token) :=
  let cs := s.toList.dropWhile Char.isWhitespace
  tokenizeAux (cs.length + 1) cs

/-- Digit run to a natural number. -/
def digitsToNat (ds : List Char) : Nat :=
  ds.foldl (fun a c => 10 * a + (c.toNat - '0'.toNat)) 0

/-- `str::parse::<f32>` restricted to the digit/dot strings the scanner can
produce as `number` tokens: accepted iff there is at least one digit and at
most one dot; the value is the exact decimal rational. -/
def parseNumber (s : String) : Option ℚ :=
  let cs := s.toList
  if cs ≠ [] ∧ cs.all is_digit_or_dot ∧ (cs.filter (· == '.')).length ≤ 1 ∧
      cs.any Char.isDigit then
    let ip := cs.takeWhile Char.isDigit
    let rest := cs.dropWhile Char.isDigit
    let fp := match rest with
      | '.' :: t => t
      | _ => []
    some ((digitsToNat ip : ℚ) + (digitsToNat fp : ℚ) / (10 ^ fp.length : ℚ))
  else
    none

/-- `Precedence`, from `src/parsing.rs`. -/
inductive Precedence where
  | low
  | medium
  | high
deriving DecidableEq, Repr

/-- `Precedence::precedes`, from `src/parsing.rs`; the overlapping match arms
are kept in the source's order. -/
def Precedence.precedes : Precedence → Precedence → Bool
  | _, .high => false
  | .high, _ => true
  | .medium, _ => true
  | _, .medium => false
  | _, _ => true

/-- `Function` (unary functions, including the `+`/`-` value prefixes), from
`src/parsing.rs`. -/
inductive Function where
  | positive
  | negative
  | floor
  | ceil
  | round
  | sin
  | cos
  | tan
  | asin
  | acos
  | atan
  | todeg
  | torad
  | log
  | ln
  | sqrt
  | cbrt
  | abs
deriving DecidableEq, Repr

/-- `Function::from_operator`, from `src/parsing.rs`. -/
def Function.from_operator (content : String) : Except CalcError Function :=
  match content with
  | "+" => .ok .positive
  | "-" => .ok .negative
  | _ => .error (.operator content)

/-- `Function::from_identifier`, from `src/parsing.rs`. -/
def Function.from_identifier (content : String) : Option Function :=
  match content with
  | "floor" => some .floor
  | "ceil" => some .ceil
  | "round" => some .round
  | "sin" => some .sin
  | "cos" => some .cos
  | "tan" => some .tan
  | "asin" => some .asin
  | "acos" => some .acos
  | "atan" => some .atan
  | "todeg" => some .todeg
  | "torad" => some .torad
  | "log" => some .log
  | "ln" => some .ln
  | "sqrt" => some .sqrt
  | "cbrt" => some .cbrt
  | "abs" => some .abs
  | _ => none

/-- `Function::call`, from `src/parsing.rs`, over the exact rational value
model.  `positive`, `negative`, `floor`, `ceil`, `round` (f32 rounds half away
from zero) and `abs` are exact on the rationals every theorem below uses; the
remaining real-valued operations have no rational counterpart, are not used by
any theorem below, and are modelled by the constant-zero function. -/
def Function.call : Function → ℚ → ℚ
  | .positive => fun n => n
  | .negative => fun n => -n
  | .floor => fun n => (⌊n⌋ : ℚ)
  | .ceil => fun n => (⌈n⌉ : ℚ)
  | .round => fun n => if 0 ≤ n then (⌊n + 1/2⌋ : ℚ) else (⌈n - 1/2⌉ : ℚ)
  | .abs => fun n => |n|
  | _ => fun _ => 0

/-- `Function::precedence`, from `src/parsing.rs`. -/
def Function.precedence : Function → Precedence
  | .positive | .negative => .low
  | _ => .high

/-- `BinaryFunction`, from `src/parsing.rs`. -/
inductive BinaryFunction where
  | addition
  | subtraction
  | multiplication
  | division
  | exponentiation
deriving DecidableEq, Repr

/-- `BinaryFunction::from_operator`, from `src/parsing.rs`. -/
def BinaryFunction.from_operator (content : String) : Except CalcError BinaryFunction :=
  match content with
  | "+" => .ok .addition
  | "-" => .ok .subtraction
  | "*" => .ok .multiplication
  | "/" => .ok .division
  | "^" => .ok .exponentiation
  | _ => .error (.operator content)

/-- `f32::powf` over the rational model: exact on integral exponents (the only
exponents any theorem below uses); other exponents are real-valued and are
modelled by `0`. -/
def powf (a b : ℚ) : ℚ :=
  if b.den = 1 then a ^ b.num else 0

/-- `BinaryFunction::call`, from `src/parsing.rs` (division by zero does not
occur in any theorem below). -/
def BinaryFunction.call : BinaryFunction → ℚ → ℚ → ℚ
  | .addition => fun a b => a + b
  | .subtraction => fun a b => a - b
  | .multiplication => fun a b => a * b
  | .division => fun a b => a / b
  | .exponentiation => fun a b => powf a b

/-- `BinaryFunction::precedence`, from `src/parsing.rs`. -/
def BinaryFunction.precedence : BinaryFunction → Precedence
  | .addition | .subtraction => .low
  | .multiplication | .division => .medium
  | .exponentiation => .high

/-- `VariedFunction`, from `src/parsing.rs`. -/
inductive VariedFunction where
  | min
  | max
  | avg
deriving DecidableEq, Repr

/-- `VariedFunction::from_identifier`, from `src/parsing.rs`. -/
def VariedFunction.from_identifier (content : String) : Option VariedFunction :=
  match content with
  | "min" => some .min
  | "max" => some .max
  | "avg" => some .avg
  | _ => none

/-- The rational value of `f32::MAX`, `(2^24 - 1) * 2^104`. -/
def f32MAX : ℚ := (2 ^ 24 - 1) * 2 ^ 104

/-- The rational value of `f32::MIN`, `-f32::MAX`. -/
def f32MIN : ℚ := -f32MAX

/-- `VariedFunction::call`, from `src/parsing.rs`: folds from `f32::MAX`
(resp. `f32::MIN`) for `min` (resp. `max`); `avg` divides the sum by the
length (never applied to an empty list by any theorem below). -/
def VariedFunction.call : VariedFunction → List ℚ → ℚ
  | .min => fun values => values.foldl (fun a b => Min.min a b) f32MAX
  | .max => fun values => values.foldl (fun a b => Max.max a b) f32MIN
  | .avg => fun values => values.sum / (values.length : ℚ)

/-- `ExprNode`, from `src/parsing.rs`.  The Rust `cast`/`tie`/`knot` payloads
(`Cast`, `Tie`, `Knot`) store the function pointer produced by `call`; the
embedding stores the originating enum instead and applies `call` at execution
time.  `knot` carries the argument count exactly as `Knot.count` does. -/
inductive ExprNode where
  | value (v : ℚ)
  | cast (f : Function)
  | tie (f : BinaryFunction)
  | knot (count : Nat) (f : VariedFunction)
  | assign (identifier : String)
deriving DecidableEq, Repr

/-- `Into<ExprNode> for Function`, from `src/parsing.rs`. -/
def Function.into (f : Function) : ExprNode := .cast f

/-- `Into<ExprNode> for BinaryFunction`, from `src/parsing.rs`. -/
def BinaryFunction.into (f : BinaryFunction) : ExprNode := .tie f

/-- `ExprNode::varied`, from `src/parsing.rs`. -/
def ExprNode.varied (f : VariedFunction) (count : Nat) : ExprNode := .knot count f

/-- `Function::preceding`, from `src/parsing.rs`. -/
def Function.preceding (f : Function) (p : Precedence) : Option ExprNode :=
  if f.precedence.precedes p then some f.into else none

/-- `BinaryFunction::preceding`, from `src/parsing.rs`. -/
def BinaryFunction.preceding (f : BinaryFunction) (p : Precedence) : Option ExprNode :=
  if f.precedence.precedes p then some f.into else none

/-- `Enclosure`, from `src/parsing.rs` (`open` is a Lean keyword, rendered
`opened`). -/
inductive Enclosure where
  | opened
  | nested
  | listed
deriving DecidableEq, Repr

/-- `StackNode`, from `src/parsing.rs` (`section` and `variable` are Lean
keywords, rendered `section'` and `variable'`). -/
inductive StackNode where
  | function (f : Function)
  | binary_function (f : BinaryFunction)
  | varied_function (f : VariedFunction) (count : Nat)
  | section' (e : Enclosure)
  | variable' (name : String)
  | assign (name : String)
deriving DecidableEq, Repr

/-- The variable mapping (`HashMap<String, f32>`), as an association list.
`insertVar` conses, which shadows older entries; under `findVar`'s
first-match lookup this is observationally the `HashMap::insert` overwrite. -/
abbrev VarMap := List (String × ℚ)

/-- `HashMap::get` on the variable mapping. -/
def findVar (m : VarMap) (k : String) : Option ℚ :=
  (m.find? (fun p => p.1 == k)).map (·.2)

/-- `HashMap::insert` on the variable mapping. -/
def insertVar (k : String) (v : ℚ) (m : VarMap) : VarMap :=
  (k, v) :: m

/-- The parser's rules, from `src/parsing.rs`.  Rust stores each rule as a
struct of two function pointers (`cause`, `effect`); the embedding
defunctionalizes them into this enum with the `ruleCause` and `ruleEffect`
dispatchers below. -/
inductive Rule where
  | value_placing
  | operator_placing
  | paren_placing
  | paren_binding
  | operator_binding
  | identifier_placing
  | list_placing
  | arg_binding
  | list_binding
  | assign_placing
  | assign_binding
deriving DecidableEq, Repr

/-- `Ruleset`, from `src/parsing.rs`: a stack of rule overlays, base first. -/
abbrev Ruleset := List (List Rule)

/-- `Ruleset::reset`, from `src/parsing.rs` (`truncate(1)`). -/
def Ruleset.reset (rs : Ruleset) : Ruleset := rs.take 1

/-- `Ruleset::push`, from `src/parsing.rs`. -/
def Ruleset.push (rs : Ruleset) (l : List Rule) : Ruleset := rs ++ [l]

/-- `Ruleset::placing`, from `src/parsing.rs`. -/
def Ruleset.placing : Ruleset :=
  [[.value_placing, .operator_placing, .paren_placing, .identifier_placing],
   [.assign_placing]]

/-- `Ruleset::binding`, from `src/parsing.rs`. -/
def Ruleset.binding : Ruleset := [[.operator_binding]]

/-- The `cause` field of each rule, from `src/parsing.rs`. -/
def ruleCause : Rule → Token → Bool
  | .value_placing, t => t.kind == .number
  | .operator_placing, t => t.kind == .operator
  | .paren_placing, t => t.content == "("
  | .paren_binding, t => t.content == ")"
  | .operator_binding, t => t.kind == .operator
  | .identifier_placing, t => t.kind == .identifier
  | .list_placing, _ => true
  | .arg_binding, t => t.content == ","
  | .list_binding, t => t.content == ")"
  | .assign_placing, t => t.kind == .identifier
  | .assign_binding, t => t.kind == .operator

/-- `Ruleset::applies`, from `src/parsing.rs`: first matching rule, innermost
overlay first (`rules.iter().rev().flatten()`); `DidNotExpect` if none. -/
def Ruleset.applies (rs : Ruleset) (t : Token) : Except Failure Rule :=
  match (rs.reverse.flatten).find? (fun r => ruleCause r t) with
  | some r => .ok r
  | none => .error (.err (.did_not_expect t.content))

/-- `ActiveRuleset`, from `src/parsing.rs`. -/
inductive ActiveRuleset where
  | placing
  | binding
deriving DecidableEq, Repr

/-- `Context`, from `src/parsing.rs`.  The Rust struct borrows the caller's
variable mapping mutably; the embedding stores it as a field and threads the
whole context. -/
structure Context where
  placing : Ruleset
  binding : Ruleset
  active_ruleset : ActiveRuleset
  constants : VarMap
  variables' : VarMap
  enclosure : Enclosure
deriving DecidableEq, Repr

/-- The rational value of the `f32` constant `std::f32::consts::PI`. -/
def piF32 : ℚ := 13176795 / 4194304

/-- The rational value of the `f32` constant `std::f32::consts::E`. -/
def eF32 : ℚ := 11401301 / 4194304

/-- `create_constants`, from `src/parsing.rs`. -/
def create_constants : VarMap := [("pi", piF32), ("e", eF32)]

/-- `Context::new`, from `src/parsing.rs`. -/
def Context.new (variables' : VarMap) : Context :=
  { placing := Ruleset.placing
    binding := Ruleset.binding
    active_ruleset := .placing
    constants := create_constants
    variables' := variables'
    enclosure := .opened }

/-- `Context::enclose`, from `src/parsing.rs`: on an enclosure change, reset
both rulesets and overlay the binding rules of the new enclosure. -/
def Context.enclose (ctx : Context) (e : Enclosure) : Context :=
  if ctx.enclosure ≠ e then
    let p := ctx.placing.reset
    let b := ctx.binding.reset
    let b :=
      if e = .nested then b.push [.paren_binding]
      else if e = .listed then b.push [.arg_binding, .list_binding]
      else b
    { ctx with placing := p, binding := b, enclosure := e }
  else ctx

/-- `Yard`, from `src/parsing.rs`.  `expression` grows at its end (the Rust
`Vec::push`); `stack`'s head is the Rust stack's top. -/
structure Yard where
  expression : List ExprNode
  stack : List StackNode
deriving DecidableEq, Repr

/-- `Yard::new`, from `src/parsing.rs`. -/
def Yard.new : Yard := { expression := [], stack := [] }

/-- `Yard::get_preceding`, from `src/parsing.rs`. -/
def Yard.get_preceding (y : Yard) (p : Precedence) : Option ExprNode :=
  match y.stack with
  | .function f :: _ => f.preceding p
  | .binary_function f :: _ => f.preceding p
  | _ => none

/-- The `while let Some(node) = yard.pop_preceding(..)` loop of
`operator_binding`'s effect (`src/parsing.rs`), as structural recursion on the
stack: flush top functions/binary functions whose precedence `precedes` the
new operator's. -/
def flushPreceding (p : Precedence) : List StackNode → List ExprNode →
    List StackNode × List ExprNode
  | .function f :: rest, e =>
    match f.preceding p with
    | some n => flushPreceding p rest (e ++ [n])
    | none => (.function f :: rest, e)
  | .binary_function f :: rest, e =>
    match f.preceding p with
    | some n => flushPreceding p rest (e ++ [n])
    | none => (.binary_function f :: rest, e)
  | s, e => (s, e)

/-- The pop loop of `paren_binding`'s effect (`src/parsing.rs`): convert
pending functions to output until the first `section` marker, whose captured
enclosure is restored; other markers are silently dropped (`_ => ()`). -/
def parenPop (ctx : Context) : List StackNode → List ExprNode →
    Context × List StackNode × List ExprNode
  | [], e => (ctx, [], e)
  | .section' enc :: s, e => (ctx.enclose enc, s, e)
  | .function f :: s, e => parenPop ctx s (e ++ [f.into])
  | .binary_function f :: s, e => parenPop ctx s (e ++ [f.into])
  | _ :: s, e => parenPop ctx s e

/-- The pop loop of `arg_binding`'s effect (`src/parsing.rs`): flush pending
functions up to the first `section`; then the node below the section is popped
and, only if it is a `varied_function`, re-pushed with its count incremented
together with the section (otherwise both are dropped, mirroring the
unconditional `pop` inside the `if let`). -/
def argPop : List StackNode → List ExprNode → List StackNode × List ExprNode
  | [], e => ([], e)
  | .section' enc :: s, e =>
    (match s with
     | .varied_function f c :: s' => .section' enc :: .varied_function f (c + 1) :: s'
     | _ :: s' => s'
     | [] => [], e)
  | .function f :: s, e => argPop s (e ++ [f.into])
  | .binary_function f :: s, e => argPop s (e ++ [f.into])
  | _ :: s, e => argPop s e

/-- The pop loop of `list_binding`'s effect (`src/parsing.rs`): flush pending
functions up to the first `section`; the node below it is popped and, if it is
a `varied_function`, a `knot` node with count `+ 1` is emitted (otherwise the
popped node is dropped). -/
def listPop : List StackNode → List ExprNode → List StackNode × List ExprNode
  | [], e => ([], e)
  | .section' _ :: s, e =>
    (match s with
     | .varied_function f c :: s' => (s', e ++ [ExprNode.varied f (c + 1)])
     | _ :: s' => (s', e)
     | [] => ([], e))
  | .function f :: s, e => listPop s (e ++ [f.into])
  | .binary_function f :: s, e => listPop s (e ++ [f.into])
  | _ :: s, e => listPop s e

/-- `operator_binding`'s effect, from `src/parsing.rs` (also entered directly
by `assign_binding`). -/
def operator_binding_effect (ctx : Context) (y : Yard) (t : Token) :
    Except Failure (Context × Yard) :=
  let ctx := { ctx with active_ruleset := .placing }
  match BinaryFunction.from_operator t.content with
  | .error e => .error (.err e)
  | .ok op =>
    let (s, e) := flushPreceding op.precedence y.stack y.expression
    .ok (ctx, { expression := e, stack := .binary_function op :: s })

/-- The `effect` field of each rule, from `src/parsing.rs`. -/
def ruleEffect : Rule → Context → Yard → Token → Except Failure (Context × Yard)
  | .value_placing, ctx, y, t =>
    let ctx := { ctx with active_ruleset := .binding }
    match parseNumber t.content with
    | some v => .ok (ctx, { y with expression := y.expression ++ [.value v] })
    | none => .error (.err (.number t.content))
  | .operator_placing, ctx, y, t =>
    match Function.from_operator t.content with
    | .ok f => .ok (ctx, { y with stack := .function f :: y.stack })
    | .error e => .error (.err e)
  | .paren_placing, ctx, y, _ =>
    let y := { y with stack := .section' ctx.enclosure :: y.stack }
    .ok (ctx.enclose .nested, y)
  | .paren_binding, ctx, y, _ =>
    let (ctx, s, e) := parenPop ctx y.stack y.expression
    .ok (ctx, { expression := e, stack := s })
  | .operator_binding, ctx, y, t => operator_binding_effect ctx y t
  | .identifier_placing, ctx, y, t =>
    match findVar ctx.constants t.content with
    | some c =>
      .ok ({ ctx with active_ruleset := .binding },
           { y with expression := y.expression ++ [.value c] })
    | none =>
    match findVar ctx.variables' t.content with
    | some v =>
      .ok ({ ctx with active_ruleset := .binding },
           { y with expression := y.expression ++ [.value v] })
    | none =>
    match Function.from_identifier t.content with
    | some f => .ok (ctx, { y with stack := .function f :: y.stack })
    | none =>
    match VariedFunction.from_identifier t.content with
    | some f =>
      .ok ({ ctx with placing := ctx.placing.push [.list_placing] },
           { y with stack := .varied_function f 0 :: y.stack })
    | none => .error (.err (.undefined t.content))
  | .list_placing, ctx, y, t =>
    if t.content ≠ "(" then .error (.err (.did_not_expect t.content))
    else
      let ctx := { ctx with placing := ctx.placing.reset }
      let ctx := ctx.enclose .listed
      .ok (ctx, { y with stack := .section' ctx.enclosure :: y.stack })
  | .arg_binding, ctx, y, _ =>
    let ctx := { ctx with active_ruleset := .placing }
    let (s, e) := argPop y.stack y.expression
    .ok (ctx, { expression := e, stack := s })
  | .list_binding, ctx, y, _ =>
    let (s, e) := listPop y.stack y.expression
    .ok (ctx, { expression := e, stack := s })
  | .assign_placing, ctx, y, t =>
    match findVar ctx.constants t.content with
    | some c =>
      .ok ({ ctx with active_ruleset := .binding },
           { y with expression := y.expression ++ [.value c] })
    | none =>
    match Function.from_identifier t.content with
    | some f => .ok (ctx, { y with stack := .function f :: y.stack })
    | none =>
    match VariedFunction.from_identifier t.content with
    | some f =>
      .ok ({ ctx with placing := ctx.placing.push [.list_placing] },
           { y with stack := .varied_function f 0 :: y.stack })
    | none =>
      .ok ({ ctx with active_ruleset := .binding,
                      binding := ctx.binding.push [.assign_binding] },
           { y with stack := .variable' t.content :: y.stack })
  | .assign_binding, ctx, y, t =>
    match y.stack with
    | .variable' id :: s =>
      if t.content = "=" then
        .ok ({ ctx with active_ruleset := .placing, binding := ctx.binding.reset },
             { y with stack := .assign id :: s })
      else
        match findVar ctx.variables' id with
        | some v =>
          operator_binding_effect ctx
            { expression := y.expression ++ [.value v], stack := s } t
        | none => .error (.err (.undefined id))
    | _ => .error (.panicked "Expected variable at top of stack")

/-- `Context::apply`, from `src/parsing.rs`: dispatch the token to the first
applicable rule of the active ruleset. -/
def Context.apply (ctx : Context) (y : Yard) (t : Token) :
    Except Failure (Context × Yard) :=
  match (match ctx.active_ruleset with
         | .placing => ctx.placing.applies t
         | .binding => ctx.binding.applies t) with
  | .error e => .error e
  | .ok r => ruleEffect r ctx y t

/-- The pop loop of `Yard::finalize`, from `src/parsing.rs`: any leftover
`section` is `CouldNotFind(")")`, a leftover `varied_function` is the
`panic!("did not expect varied function")`, a `variable` marker resolves in
the variable mapping or is `Undefined`, an `assign` marker becomes an `assign`
node. -/
def finalizeStack (ctx : Context) : List StackNode → List ExprNode →
    Except Failure (List ExprNode)
  | [], e => .ok e
  | .section' _ :: _, _ => .error (.err (.could_not_find ")"))
  | .function f :: s, e => finalizeStack ctx s (e ++ [f.into])
  | .binary_function f :: s, e => finalizeStack ctx s (e ++ [f.into])
  | .varied_function _ _ :: _, _ => .error (.panicked "did not expect varied function")
  | .variable' id :: s, e =>
    match findVar ctx.variables' id with
    | some v => finalizeStack ctx s (e ++ [.value v])
    | none => .error (.err (.undefined id))
  | .assign id :: s, e => finalizeStack ctx s (e ++ [ExprNode.assign id])

/-- `Yard::finalize`, from `src/parsing.rs`: `AbruptEnd` if the active ruleset
is still `placing`, otherwise pop the remaining markers into the output. -/
def Yard.finalize (y : Yard) (ctx : Context) : Except Failure (List ExprNode) :=
  if ctx.active_ruleset = .placing then .error (.err .abrupt_end)
  else finalizeStack ctx y.stack y.expression

/-- The token loop of `parse`, from `src/parsing.rs`: apply each token, and
after the first token reset the placing ruleset (dropping its overlays).
Returns the final context and yard, which `parse` then finalizes. -/
def parseSteps : List (Except CalcError Token) → Context → Yard → Bool →
    Except Failure (Context × Yard)
  | [], ctx, y, _ => .ok (ctx, y)
  | t :: rest, ctx, y, first =>
    match t with
    | .error e => .error (.err e)
    | .ok tok =>
      match ctx.apply y tok with
      | .error e => .error e
      | .ok (ctx, y) =>
        let ctx := if first then { ctx with placing := ctx.placing.reset } else ctx
        parseSteps rest ctx y false

/-- `parse`, from `src/parsing.rs`: run the token loop, finalize the yard, and
return the postfix expression.  The caller's variable mapping (borrowed
mutably in Rust) is returned alongside it. -/
def parse (toks : List (Except CalcError Token)) (variables' : VarMap) :
    Except Failure (List ExprNode × VarMap) :=
  match parseSteps toks (Context.new variables') Yard.new true with
  | .error e => .error e
  | .ok (ctx, y) =>
    match y.finalize ctx with
    | .error e => .error e
    | .ok e => .ok (e, ctx.variables')

/-- `parse` applied to the scanner's token sequence for a source line. -/
def parseLine (s : String) (variables' : VarMap) :
    Except Failure (List ExprNode × VarMap) :=
  parse (tokenize s) variables'

/-- One step of `evaluate`'s node loop, from `src/evaluating.rs`.  The slot
list's head is the top of the Rust `Vec` (`push`/`pop` act on the head); the
Rust `slots.first()` (index 0, the bottom) is the list's last element.
`none` models a failing `unwrap` (a `pop` on an empty stack, or
`slots.first()` on an empty stack in the `assign` arm).  A `knot` node pops
`count` operands in order into its argument list. -/
def execNode (n : ExprNode) (slots : List ℚ) (vars : VarMap) :
    Option (List ℚ × VarMap) :=
  match n with
  | .value v => some (v :: slots, vars)
  | .cast f =>
    match slots with
    | x :: s => some (f.call x :: s, vars)
    | [] => none
  | .tie f =>
    match slots with
    | right :: left :: s => some (f.call left right :: s, vars)
    | _ => none
  | .knot count f =>
    if count ≤ slots.length then
      some (f.call (slots.take count) :: slots.drop count, vars)
    else none
  | .assign id =>
    match slots.getLast? with
    | some v => some (slots, insertVar id v vars)
    | none => none

/-- The node loop of `evaluate`, from `src/evaluating.rs`, threading the slot
stack and the variable mapping. -/
def execGo : List ExprNode → List ℚ → VarMap → Option (List ℚ × VarMap)
  | [], slots, vars => some (slots, vars)
  | n :: p, slots, vars =>
    match execNode n slots vars with
    | some (s, v) => execGo p s v
    | none => none

/-- `evaluate`, from `src/evaluating.rs`: run the postfix program on an
initially empty slot stack and return `*slots.first()` (the bottom element)
together with the (possibly updated) variable mapping; `none` models a
panicking `unwrap`. -/
def evaluate (p : List ExprNode) (vars : VarMap) : Option (ℚ × VarMap) :=
  match execGo p [] vars with
  | some (slots, v) =>
    match slots.getLast? with
    | some r => some (r, v)
    | none => none
  | none => none

/-- `parse` then `evaluate` for one source line, returning the line's value
and the updated variable mapping. -/
def evalLine (s : String) (vars : VarMap) : Option (ℚ × VarMap) :=
  match parseLine s vars with
  | .ok (p, vars') => evaluate p vars'
  | .error _ => none

/-- Modelled from the spec: the evaluator whose `assign` arm follows the
spec's words "`assign` reads (without popping) the current top of stack"
(`§4.5`), instead of the source's `slots.first()` (the bottom).  Used only to
compare the spec's description with the source's behaviour. -/
def execNodeSpecTopAssign (n : ExprNode) (slots : List ℚ) (vars : VarMap) :
    Option (List ℚ × VarMap) :=
  match n with
  | .assign id =>
    match slots.head? with
    | some v => some (slots, insertVar id v vars)
    | none => none
  | _ => execNode n slots vars

/-- The node loop of the spec-modelled top-reading evaluator. -/
def execGoSpecTopAssign : List ExprNode → List ℚ → VarMap →
    Option (List ℚ × VarMap)
  | [], slots, vars => some (slots, vars)
  | n :: p, slots, vars =>
    match execNodeSpecTopAssign n slots vars with
    | some (s, v) => execGoSpecTopAssign p s v
    | none => none

/-- The names carried by a program's `assign` nodes. -/
def assignNames (p : List ExprNode) : List String :=
  p.filterMap (fun n =>
    match n with
    | .assign id => some id
    | _ => none)

lemma findVar_insertVar (k k' : String) (v : ℚ) (m : VarMap) :
    findVar (insertVar k v m) k' = if k = k' then some v else findVar m k' := by
  by_cases h : k = k'
  · subst h
    simp [findVar, insertVar]
  · simp [findVar, insertVar, List.find?_cons, h]

lemma Context.enclose_variables (ctx : Context) (e : Enclosure) :
    (ctx.enclose e).variables' = ctx.variables' := by
  unfold Context.enclose
  split <;> rfl

lemma parenPop_variables (ctx : Context) (s : List StackNode) (e : List ExprNode) :
    (parenPop ctx s e).1.variables' = ctx.variables' := by
  induction s generalizing e with
  | nil => rfl
  | cons n s ih => cases n <;> simp [parenPop, Context.enclose_variables, ih]

lemma operator_binding_effect_variables {ctx : Context} {y : Yard} {t : Token}
    {c' : Context} {y' : Yard}
    (h : operator_binding_effect ctx y t = .ok (c', y')) :
    c'.variables' = ctx.variables' := by
  unfold operator_binding_effect at h
  split at h
  · exact absurd h (by simp)
  · rename_i op hop
    obtain ⟨s, e, hse⟩ : ∃ s e, flushPreceding op.precedence y.stack y.expression = (s, e) :=
      ⟨_, _, rfl⟩
    rw [hse] at h
    cases h
    rfl

lemma ruleEffect_variables {r : Rule} {ctx : Context} {y : Yard} {t : Token}
    {c' : Context} {y' : Yard}
    (h : ruleEffect r ctx y t = .ok (c', y')) :
    c'.variables' = ctx.variables' := by
  cases r <;> simp only [ruleEffect] at h
  case value_placing =>
    split at h
    · cases h
      rfl
    · exact absurd h (by simp)
  case operator_placing =>
    split at h
    · cases h
      rfl
    · exact absurd h (by simp)
  case paren_placing =>
    cases h
    exact Context.enclose_variables ..
  case paren_binding =>
    obtain ⟨c2, s, e, hpe⟩ :
        ∃ c2 s e, parenPop ctx y.stack y.expression = (c2, s, e) := ⟨_, _, _, rfl⟩
    rw [hpe] at h
    cases h
    have := parenPop_variables ctx y.stack y.expression
    rw [hpe] at this
    exact this
  case operator_binding =>
    exact operator_binding_effect_variables h
  case identifier_placing =>
    split at h
    · cases h
      rfl
    · split at h
      · cases h
        rfl
      · split at h
        · cases h
          rfl
        · split at h
          · cases h
            rfl
          · exact absurd h (by simp)
  case list_placing =>
    split at h
    · exact absurd h (by simp)
    · cases h
      exact Context.enclose_variables ..
  case arg_binding =>
    obtain ⟨s, e, hse⟩ : ∃ s e, argPop y.stack y.expression = (s, e) := ⟨_, _, rfl⟩
    rw [hse] at h
    cases h
    rfl
  case list_binding =>
    obtain ⟨s, e, hse⟩ : ∃ s e, listPop y.stack y.expression = (s, e) := ⟨_, _, rfl⟩
    rw [hse] at h
    cases h
    rfl
  case assign_placing =>
    split at h
    · cases h
      rfl
    · split at h
      · cases h
        rfl
      · split at h
        · cases h
          rfl
        · cases h
          rfl
  case assign_binding =>
    split at h
    · split at h
      · cases h
        rfl
      · split at h
        · exact operator_binding_effect_variables h
        · exact absurd h (by simp)
    · exact absurd h (by simp)

lemma Context.apply_variables {ctx : Context} {y : Yard} {t : Token}
    {c' : Context} {y' : Yard}
    (h : ctx.apply y t = .ok (c', y')) :
    c'.variables' = ctx.variables' := by
  unfold Context.apply at h
  split at h
  · exact absurd h (by simp)
  · exact ruleEffect_variables h

lemma parseSteps_variables {toks : List (Except CalcError Token)} {ctx : Context}
    {y : Yard} {first : Bool} {c' : Context} {y' : Yard}
    (h : parseSteps toks ctx y first = .ok (c', y')) :
    c'.variables' = ctx.variables' := by
  induction toks generalizing ctx y first with
  | nil =>
    cases h
    rfl
  | cons t rest ih =>
    simp only [parseSteps] at h
    split at h
    · exact absurd h (by simp)
    · split at h
      · exact absurd h (by simp)
      · rename_i tok _ st hap
        have h1 := ih h
        have h2 := Context.apply_variables hap
        split at h1 <;> simp_all

lemma unary_from_operator_error {c : String} {e : CalcError}
    (h : Function.from_operator c = .error e) : e = .operator c := by
  unfold Function.from_operator at h
  split at h <;> simp_all

lemma binary_from_operator_error {c : String} {e : CalcError}
    (h : BinaryFunction.from_operator c = .error e) : e = .operator c := by
  unfold BinaryFunction.from_operator at h
  split at h <;> simp_all

lemma Ruleset.applies_error {rs : Ruleset} {t : Token} {e : Failure}
    (h : rs.applies t = .error e) : ∃ c, e = .err (.did_not_expect c) := by
  unfold Ruleset.applies at h
  split at h
  · exact absurd h (by simp)
  · cases h
    exact ⟨_, rfl⟩

/-- The error kinds a rule effect can return: never `AbruptEnd`, never
`CouldNotFind`. -/
lemma ruleEffect_error_shape {r : Rule} {ctx : Context} {y : Yard} {t : Token}
    {e : Failure} (h : ruleEffect r ctx y t = .error e) :
    e ≠ .err .abrupt_end ∧ ∀ sym, e ≠ .err (.could_not_find sym) := by
  have hob : ∀ (c : Context) (yd : Yard),
      operator_binding_effect c yd t = .error e →
      e ≠ .err .abrupt_end ∧ ∀ sym, e ≠ .err (.could_not_find sym) := by
    intro c yd hh
    unfold operator_binding_effect at hh
    split at hh
    · rename_i e' he'
      cases hh
      have := binary_from_operator_error he'
      subst this
      exact ⟨by simp, fun sym => by simp⟩
    · rename_i op hop
      obtain ⟨s, ex, hse⟩ : ∃ s ex, flushPreceding op.precedence yd.stack yd.expression = (s, ex) :=
        ⟨_, _, rfl⟩
      rw [hse] at hh
      exact absurd hh (by simp)
  cases r <;> simp only [ruleEffect] at h
  case value_placing =>
    split at h
    · exact absurd h (by simp)
    · cases h
      exact ⟨by simp, fun sym => by simp⟩
  case operator_placing =>
    split at h
    · exact absurd h (by simp)
    · rename_i e' he'
      cases h
      have := unary_from_operator_error he'
      subst this
      exact ⟨by simp, fun sym => by simp⟩
  case paren_placing => exact absurd h (by simp)
  case paren_binding =>
    obtain ⟨c2, s, ex, hpe⟩ :
        ∃ c2 s ex, parenPop ctx y.stack y.expression = (c2, s, ex) := ⟨_, _, _, rfl⟩
    rw [hpe] at h
    exact absurd h (by simp)
  case operator_binding => exact hob ctx y h
  case identifier_placing =>
    split at h
    · exact absurd h (by simp)
    · split at h
      · exact absurd h (by simp)
      · split at h
        · exact absurd h (by simp)
        · split at h
          · exact absurd h (by simp)
          · cases h
            exact ⟨by simp, fun sym => by simp⟩
  case list_placing =>
    split at h
    · cases h
      exact ⟨by simp, fun sym => by simp⟩
    · exact absurd h (by simp)
  case arg_binding =>
    obtain ⟨s, ex, hse⟩ : ∃ s ex, argPop y.stack y.expression = (s, ex) := ⟨_, _, rfl⟩
    rw [hse] at h
    exact absurd h (by simp)
  case list_binding =>
    obtain ⟨s, ex, hse⟩ : ∃ s ex, listPop y.stack y.expression = (s, ex) := ⟨_, _, rfl⟩
    rw [hse] at h
    exact absurd h (by simp)
  case assign_placing =>
    split at h
    · exact absurd h (by simp)
    · split at h
      · exact absurd h (by simp)
      · split at h
        · exact absurd h (by simp)
        · exact absurd h (by simp)
  case assign_binding =>
    split at h
    · split at h
      · exact absurd h (by simp)
      · split at h
        · exact hob _ _ h
        · cases h
          exact ⟨by simp, fun sym => by simp⟩
    · cases h
      exact ⟨by simp, fun sym => by simp⟩

lemma Context.apply_error_shape {ctx : Context} {y : Yard} {t : Token}
    {e : Failure} (h : ctx.apply y t = .error e) :
    e ≠ .err .abrupt_end ∧ ∀ sym, e ≠ .err (.could_not_find sym) := by
  unfold Context.apply at h
  split at h
  · rename_i he2
    cases h
    obtain ⟨c, rfl⟩ : ∃ c, e = Failure.err (.did_not_expect c) := by
      rcases hact : ctx.active_ruleset <;> rw [hact] at he2 <;>
        exact Ruleset.applies_error (by simpa using he2)
    exact ⟨by simp, fun sym => by simp⟩
  · exact ruleEffect_error_shape h

lemma peel_error {cs : List Char} {e : CalcError}
    (h : peel cs = some (.error e)) : ∃ c, e = .character c := by
  cases cs with
  | nil => simp [peel] at h
  | cons c rest =>
    by_cases h1 : List.takeWhile is_digit_or_dot (c :: rest) = []
    · by_cases h2 : is_operator c
      · simp [peel, h1, h2] at h
      · by_cases h3 : is_punctuation c
        · simp [peel, h1, h2, h3] at h
        · by_cases h4 : List.takeWhile Char.isAlpha (c :: rest) = []
          · simp [peel, h1, h2, h3, h4] at h
            subst h
            exact ⟨_, rfl⟩
          · simp [peel, h1, h2, h3, h4] at h
    · simp [peel, h1] at h

lemma tokenizeAux_error {fuel : Nat} {cs : List Char} {e : CalcError}
    (h : Except.error e ∈ tokenizeAux fuel cs) : ∃ c, e = .character c := by
  induction fuel generalizing cs with
  | zero => simp [tokenizeAux] at h
  | succ n ih =>
    simp only [tokenizeAux] at h
    split at h
    · simp at h
    · rename_i e' hpe
      rw [List.mem_singleton] at h
      injection h with h
      subst h
      exact peel_error hpe
    · rename_i t rest hpe
      rw [List.mem_cons] at h
      rcases h with h | h
      · exact absurd h (by simp)
      · exact ih h

lemma tokenize_error {s : String} {e : CalcError}
    (h : Except.error e ∈ tokenize s) : ∃ c, e = .character c :=
  tokenizeAux_error h

/-- Errors of the token loop: never `AbruptEnd`, never `CouldNotFind`,
provided the token sequence's own errors are `InvalidCharacter` ones (which
the scanner's always are). -/
lemma parseSteps_error_shape {toks : List (Except CalcError Token)} {ctx : Context}
    {y : Yard} {first : Bool} {e : Failure}
    (htoks : ∀ er, Except.error er ∈ toks → ∃ c, er = .character c)
    (h : parseSteps toks ctx y first = .error e) :
    e ≠ .err .abrupt_end ∧ ∀ sym, e ≠ .err (.could_not_find sym) := by
  induction toks generalizing ctx y first with
  | nil => exact absurd h (by simp [parseSteps])
  | cons t rest ih =>
    simp only [parseSteps] at h
    split at h
    · rename_i er
      cases h
      obtain ⟨c, rfl⟩ := htoks er (by simp)
      exact ⟨by simp, fun sym => by simp⟩
    · rename_i tok
      split at h
      · rename_i e' he'
        cases h
        exact Context.apply_error_shape he'
      · exact ih (fun er hm => htoks er (by simp [hm])) h

lemma finalizeStack_error_shape {ctx : Context} {s : List StackNode}
    {e0 : List ExprNode} {f : Failure}
    (h : finalizeStack ctx s e0 = .error f) :
    f = .err (.could_not_find ")") ∨ f = .panicked "did not expect varied function" ∨
      ∃ id, f = .err (.undefined id) := by
  induction s generalizing e0 with
  | nil => exact absurd h (by simp [finalizeStack])
  | cons n s ih =>
    cases n <;> simp only [finalizeStack] at h
    case section' e => cases h; exact .inl rfl
    case function f => exact ih h
    case binary_function f => exact ih h
    case varied_function f c => cases h; exact .inr (.inl rfl)
    case variable' id =>
      split at h
      · exact ih h
      · cases h
        exact .inr (.inr ⟨id, rfl⟩)
    case assign id => exact ih h

lemma finalize_abrupt_iff {y : Yard} {ctx : Context} :
    y.finalize ctx = .error (.err .abrupt_end) ↔ ctx.active_ruleset = .placing := by
  constructor
  · intro h
    unfold Yard.finalize at h
    split at h
    · assumption
    · rcases finalizeStack_error_shape h with h' | h' | ⟨id, h'⟩ <;> simp at h'
  · intro h
    unfold Yard.finalize
    simp [h]

lemma assignNames_cons (n : ExprNode) (rest : List ExprNode) :
    assignNames (n :: rest) =
      (match n with
       | .assign id => id :: assignNames rest
       | _ => assignNames rest) := by
  cases n <;> rfl

lemma execGo_frame {p : List ExprNode} {slots : List ℚ} {m : VarMap}
    {slots' : List ℚ} {m' : VarMap}
    (h : execGo p slots m = some (slots', m')) :
    (∀ k, k ∉ assignNames p → findVar m' k = findVar m k) ∧
    (∀ k, k ∈ assignNames p → (findVar m' k).isSome) := by
  induction p generalizing slots m with
  | nil =>
    cases h
    exact ⟨fun k _ => rfl, fun k hk => by simp [assignNames] at hk⟩
  | cons n rest ih =>
    simp only [execGo] at h
    split at h
    · rename_i s v hn
      have hrec := ih h
      cases n <;> simp only [execNode] at hn
      case value v0 =>
        cases hn
        simpa [assignNames_cons] using hrec
      case cast f =>
        split at hn
        · cases hn
          simpa [assignNames_cons] using hrec
        · exact absurd hn (by simp)
      case tie f =>
        split at hn
        · cases hn
          simpa [assignNames_cons] using hrec
        · exact absurd hn (by simp)
      case knot count f =>
        split at hn
        · cases hn
          simpa [assignNames_cons] using hrec
        · exact absurd hn (by simp)
      case assign id =>
        split at hn
        · rename_i val hval
          cases hn
          refine ⟨fun k hk => ?_, fun k hk => ?_⟩
          · rw [assignNames_cons] at hk
            simp only [List.mem_cons, not_or] at hk
            rw [hrec.1 k hk.2, findVar_insertVar, if_neg (fun hh => hk.1 hh.symm)]
          · rw [assignNames_cons] at hk
            rcases List.mem_cons.mp hk with rfl | hk'
            · by_cases hmem : k ∈ assignNames rest
              · exact hrec.2 k hmem
              · rw [hrec.1 k hmem, findVar_insertVar]
                simp
            · exact hrec.2 k hk'
        · exact absurd hn (by simp)
    · exact absurd h (by simp)

lemma evaluate_result_bottom {p : List ExprNode} {m : VarMap}
    {slots : List ℚ} {v : VarMap}
    (h : execGo p [] m = some (slots, v)) :
    evaluate p m = slots.getLast?.map (fun r => (r, v)) := by
  unfold evaluate
  rw [h]
  cases hgl : slots.getLast? <;> simp [hgl]

lemma tokenizeAux_error_last {fuel : Nat} {cs : List Char}
    {pre post : List (Except CalcError Token)} {e : CalcError}
    (h : tokenizeAux fuel cs = pre ++ .error e :: post) : post = [] := by
  induction fuel generalizing cs pre with
  | zero => simp [tokenizeAux] at h
  | succ n ih =>
    simp only [tokenizeAux] at h
    split at h
    · simp at h
    · cases pre with
      | nil =>
        simp only [List.nil_append] at h
        injection h with h1 h2
        exact h2.symm
      | cons x xs =>
        rw [List.cons_append] at h
        injection h with h1 h2
        exact absurd h2 (by simp)
    · cases pre with
      | nil =>
        simp only [List.nil_append] at h
        injection h with h1 h2
        exact absurd h1 (by simp)
      | cons x xs =>
        rw [List.cons_append] at h
        injection h with h1 h2
        exact ih h2

set_option maxRecDepth 100000

/-- C1: the spec claims every program produced by a successful `parse`,
executed on an initially empty value stack, never underflows and leaves
exactly one value, so that `evaluate` never fails.  The code violates this:
`parse` succeeds on `"2 * (max(1,2) + 1)"` (the `list_binding` rule never
restores the enclosure, so the final `)` is dispatched to `list_binding`,
which drops the pending `*`), and executing the resulting program leaves two
values on the stack; `evaluate` then returns the bottom one, `2`. -/
theorem claim1_wellformed_stack_violated :
    parseLine "2 * (max(1,2) + 1)" [] =
      .ok ([.value 2, .value 1, .value 2, .knot 2 .max, .value 1, .tie .addition], []) ∧
    execGo [.value 2, .value 1, .value 2, .knot 2 .max, .value 1, .tie .addition] [] [] =
      some ([3, 2], []) ∧
    ([3, 2] : List ℚ).length ≠ 1 ∧
    evaluate [.value 2, .value 1, .value 2, .knot 2 .max, .value 1, .tie .addition] [] =
      some (2, []) :=
  ⟨by with_unfolding_all rfl, by with_unfolding_all rfl, by simp,
   by with_unfolding_all rfl⟩

/-- C2: operator precedence and associativity: `2 + 3 * 4` evaluates to `14`,
`(2 + 3) * 4` to `20`, `2 ^ 3 ^ 2` to `512`; `+ - * / ^` have precedences
low/low/medium/medium/high, equal precedence is flushed for the
left-associative operators (`precedes low low`, `precedes medium medium`),
higher flushes over lower (`precedes medium low`), lower does not flush over
higher, and nothing is flushed before a new `^` (`precedes _ high = false`),
making `^` right-associative. -/
theorem claim2_precedence_and_associativity :
    evalLine "2 + 3 * 4" [] = some (14, []) ∧
    evalLine "(2 + 3) * 4" [] = some (20, []) ∧
    evalLine "2 ^ 3 ^ 2" [] = some (512, []) ∧
    BinaryFunction.precedence .addition = .low ∧
    BinaryFunction.precedence .subtraction = .low ∧
    BinaryFunction.precedence .multiplication = .medium ∧
    BinaryFunction.precedence .division = .medium ∧
    BinaryFunction.precedence .exponentiation = .high ∧
    Precedence.precedes .low .low = true ∧
    Precedence.precedes .medium .medium = true ∧
    Precedence.precedes .medium .low = true ∧
    Precedence.precedes .low .medium = false ∧
    (∀ p, Precedence.precedes p .high = false) :=
  ⟨by with_unfolding_all rfl, by with_unfolding_all rfl, by with_unfolding_all rfl,
   rfl, rfl, rfl, rfl, rfl, rfl, rfl, rfl, rfl, fun p => by cases p <;> rfl⟩

/-- C3 counterexample: the claim says the `assign` node reads the current top
of the value stack; the code reads `slots.first()`, the bottom.  On the
parse-produced program for `"x = 2 * (max(1,2) + 1)"` the assign executes
with two slots `[3, 2]` (top `3`, bottom `2`): the code stores `2` under `x`,
while reading the top as claimed would store `3`. -/
theorem claim3_assign_top_counterexample :
    parseLine "x = 2 * (max(1,2) + 1)" [] =
      .ok ([.value 2, .value 1, .value 2, .knot 2 .max, .value 1, .tie .addition,
            .assign "x"], []) ∧
    execGo [.value 2, .value 1, .value 2, .knot 2 .max, .value 1, .tie .addition,
            .assign "x"] [] [] = some ([3, 2], [("x", 2)]) ∧
    execGoSpecTopAssign [.value 2, .value 1, .value 2, .knot 2 .max, .value 1,
            .tie .addition, .assign "x"] [] [] = some ([3, 2], [("x", 3)]) ∧
    findVar [("x", 2)] "x" = some 2 ∧
    findVar [("x", 3)] "x" = some 3 ∧
    (2 : ℚ) ≠ 3 :=
  ⟨by with_unfolding_all rfl, by with_unfolding_all rfl, by with_unfolding_all rfl,
   by with_unfolding_all rfl, by with_unfolding_all rfl, by norm_num⟩

/-- C3 (amended): parsing and evaluating `"x = 5"` and then `"x + 1"` against
the same variable mapping yields `6` on the second line; the assignment line
itself evaluates to the assigned value; the assign node reads the bottom
(first) element of the value stack without popping it — which is also the top
when the stack holds a single value, as in this scenario — and the final
result is the bottom element of the stack. -/
theorem claim3_assignment_stores_and_returns :
    parseLine "x = 5" [] = .ok ([.value 5, .assign "x"], []) ∧
    evaluate [.value 5, .assign "x"] [] = some (5, [("x", 5)]) ∧
    parseLine "x + 1" [("x", 5)] = .ok ([.value 5, .value 1, .tie .addition], [("x", 5)]) ∧
    evaluate [.value 5, .value 1, .tie .addition] [("x", 5)] = some (6, [("x", 5)]) ∧
    (∀ id slots vars v, slots.getLast? = some v →
      execNode (.assign id) slots vars = some (slots, insertVar id v vars)) ∧
    (∀ p m slots v, execGo p [] m = some (slots, v) →
      evaluate p m = slots.getLast?.map (fun r => (r, v))) := by
  refine ⟨by with_unfolding_all rfl, by with_unfolding_all rfl,
    by with_unfolding_all rfl, by with_unfolding_all rfl, ?_, ?_⟩
  · intro id slots vars v h
    simp [execNode, h]
  · intro p m slots v h
    exact evaluate_result_bottom h

/-- C3 witness: the amended theorem's universal parts instantiated at the
singleton stack `[5]` of the `"x = 5"` scenario. -/
theorem claim3_assignment_stores_and_returns_witness :
    ([(5 : ℚ)].getLast? = some 5) ∧
    execNode (.assign "x") [(5 : ℚ)] [] = some ([(5 : ℚ)], insertVar "x" 5 []) ∧
    execGo [ExprNode.value 5] [] [] = some ([(5 : ℚ)], []) ∧
    evaluate [ExprNode.value 5] [] =
      ([(5 : ℚ)].getLast?).map (fun r => (r, ([] : VarMap))) :=
  ⟨rfl,
   claim3_assignment_stores_and_returns.2.2.2.2.1 "x" [(5 : ℚ)] [] 5 rfl,
   by with_unfolding_all rfl,
   claim3_assignment_stores_and_returns.2.2.2.2.2 [ExprNode.value 5] [] [(5 : ℚ)] []
     (by with_unfolding_all rfl)⟩

/-- C4 counterexample: the claim says any input containing an unmatched `)`
fails with the `CouldNotFind` kind; on `"1)"` the `)` token matches no rule of
the active binding ruleset and `parse` fails with `DidNotExpect(")")`
instead. -/
theorem claim4_unmatched_close_counterexample :
    parseLine "1)" [] = .error (.err (.did_not_expect ")")) := by
  with_unfolding_all rfl

/-- C4 (amended): `parse("(1 + 2")` fails with the could-not-find-`)` kind,
and `CouldNotFind` arises exactly from finalization encountering a leftover
`(` marker, always with symbol `")"`; an unmatched `)` token instead fails
with `DidNotExpect(")")`. -/
theorem claim4_could_not_find_unclosed_paren :
    parseLine "(1 + 2" [] = .error (.err (.could_not_find ")")) ∧
    (∀ s m sym, parse (tokenize s) m = .error (.err (.could_not_find sym)) →
      sym = ")") ∧
    parseLine "1)" [] = .error (.err (.did_not_expect ")")) := by
  refine ⟨by with_unfolding_all rfl, ?_, by with_unfolding_all rfl⟩
  intro s m sym h
  unfold parse at h
  split at h
  · cases h
    rename_i hps
    have := parseSteps_error_shape (fun er hm => tokenize_error hm) hps
    exact absurd rfl (this.2 sym)
  · rename_i ctx y hps
    split at h
    · cases h
      rename_i hfin
      unfold Yard.finalize at hfin
      split at hfin
      · simp at hfin
      · rcases finalizeStack_error_shape hfin with h' | h' | ⟨id, h'⟩
        · simp_all
        · simp at h'
        · simp at h'
    · exact absurd h (by simp)

/-- C4 witness: the universal part of the amended theorem instantiated at
`"(1 + 2"`. -/
theorem claim4_could_not_find_unclosed_paren_witness :
    parse (tokenize "(1 + 2") [] = .error (.err (.could_not_find ")")) ∧
    (")" : String) = ")" :=
  ⟨by with_unfolding_all rfl,
   claim4_could_not_find_unclosed_paren.2.1 "(1 + 2" [] ")"
     (by with_unfolding_all rfl)⟩

/-- C5: `parse` fails with `AbruptEnd` if and only if the scanner's token
sequence is consumed without error while the active ruleset is still
`placing` at finalization (a value was still expected); in particular
`parse("1 +")` fails with `AbruptEnd`. -/
theorem claim5_abrupt_end_iff :
    (∀ s m, parse (tokenize s) m = .error (.err .abrupt_end) ↔
      ∃ ctx y, parseSteps (tokenize s) (Context.new m) Yard.new true = .ok (ctx, y) ∧
        ctx.active_ruleset = .placing) ∧
    parseLine "1 +" [] = .error (.err .abrupt_end) := by
  constructor
  · intro s m
    constructor
    · intro h
      unfold parse at h
      split at h
      · cases h
        rename_i hps
        have := parseSteps_error_shape (fun er hm => tokenize_error hm) hps
        exact absurd rfl this.1
      · rename_i ctx y hps
        split at h
        · cases h
          rename_i hfin
          exact ⟨ctx, y, hps, finalize_abrupt_iff.mp hfin⟩
        · exact absurd h (by simp)
    · rintro ⟨ctx, y, hok, hpl⟩
      unfold parse
      rw [hok]
      simp [Yard.finalize, hpl]
  · with_unfolding_all rfl

/-- C6: reading a never-assigned variable fails with the `Undefined` kind:
`parse("y + 1")` against an empty mapping fails with `Undefined("y")`, and
the identifier-placing rule errors with `Undefined` exactly when the
identifier is neither a constant, a known variable, a unary-function name,
nor a variadic-function name. -/
theorem claim6_undefined_identifier :
    parseLine "y + 1" [] = .error (.err (.undefined "y")) ∧
    (∀ ctx y t, findVar ctx.constants t.content = none →
      findVar ctx.variables' t.content = none →
      Function.from_identifier t.content = none →
      VariedFunction.from_identifier t.content = none →
      ruleEffect .identifier_placing ctx y t = .error (.err (.undefined t.content))) := by
  refine ⟨by with_unfolding_all rfl, ?_⟩
  intro ctx y t h1 h2 h3 h4
  simp only [ruleEffect, h1, h2, h3, h4]

/-- C6 witness: the classification rule instantiated at the identifier token
`"y"` and an empty variable mapping. -/
theorem claim6_undefined_identifier_witness :
    findVar (Context.new []).constants "y" = none ∧
    ruleEffect .identifier_placing (Context.new []) Yard.new ⟨"y", .identifier⟩ =
      .error (.err (.undefined "y")) :=
  ⟨by with_unfolding_all rfl,
   claim6_undefined_identifier.2 (Context.new []) Yard.new ⟨"y", .identifier⟩
     (by with_unfolding_all rfl) rfl rfl rfl⟩

/-- C7: the spec claims `evaluate(parse("max(1,5,3)")) == 5`.  The code
violates this: `parse`'s first-token `placing.reset()` destroys the one-shot
`list_placing` overlay pushed for the variadic name, so the `(` is treated as
a grouping parenthesis and the first `,` matches no rule: `parse` fails with
`DidNotExpect(",")`.  In a position where the overlay survives (not the first
token), the call parses, the emitted `knot` count is the comma count plus one
and the value is `5`. -/
theorem claim7_varied_first_token_bug :
    parseLine "max(1,5,3)" [] = .error (.err (.did_not_expect ",")) ∧
    parseLine "0 + max(1,5,3)" [] =
      .ok ([.value 0, .value 1, .value 5, .value 3, .knot 3 .max, .tie .addition], []) ∧
    evalLine "0 + max(1,5,3)" [] = some (5, []) :=
  ⟨by with_unfolding_all rfl, by with_unfolding_all rfl, by with_unfolding_all rfl⟩

/-- C8: scanner classification: `peel` (each pull acts on input whose leading
whitespace `tokenize` has already skipped) yields nothing on empty input, and
otherwise tries in order a maximal digit/dot run as a `number`, one of
`+ - * / ^ =` as an `operator`, one of `( ) ,` as `punctuation`, a maximal
alphabetic run as an `identifier`, and fails with `InvalidCharacter` for the
offending character otherwise, ending the token sequence; so
`parse("1 $ 2")` fails with `InvalidCharacter('$')`. -/
theorem claim8_scanner_classification :
    peel ([] : List Char) = none ∧
    (∀ c rest,
      (is_digit_or_dot c = true →
        peel (c :: rest) = some (.ok
          (⟨String.mk ((c :: rest).takeWhile is_digit_or_dot), .number⟩,
           (c :: rest).dropWhile is_digit_or_dot))) ∧
      (is_digit_or_dot c = false → is_operator c = true →
        peel (c :: rest) = some (.ok (⟨String.mk [c], .operator⟩, rest))) ∧
      (is_digit_or_dot c = false → is_operator c = false → is_punctuation c = true →
        peel (c :: rest) = some (.ok (⟨String.mk [c], .punctuation⟩, rest))) ∧
      (is_digit_or_dot c = false → is_operator c = false → is_punctuation c = false →
        c.isAlpha = true →
        peel (c :: rest) = some (.ok
          (⟨String.mk ((c :: rest).takeWhile Char.isAlpha), .identifier⟩,
           (c :: rest).dropWhile Char.isAlpha))) ∧
      (is_digit_or_dot c = false → is_operator c = false → is_punctuation c = false →
        c.isAlpha = false →
        peel (c :: rest) = some (.error (.character (String.mk [c]))))) ∧
    (∀ (s : String) pre post (e : CalcError),
      tokenize s = pre ++ .error e :: post → post = []) ∧
    parseLine "1 $ 2" [] = .error (.err (.character "$")) := by
  refine ⟨rfl, ?_, ?_, by with_unfolding_all rfl⟩
  · intro c rest
    refine ⟨?_, ?_, ?_, ?_, ?_⟩
    · intro h1
      have hnum : (c :: rest).takeWhile is_digit_or_dot
          = c :: rest.takeWhile is_digit_or_dot := by
        simp [List.takeWhile_cons, h1]
      simp [peel, hnum]
    · intro h1 h2
      have hnum : (c :: rest).takeWhile is_digit_or_dot = [] := by
        simp [List.takeWhile_cons, h1]
      simp [peel, hnum, h2]
    · intro h1 h2 h3
      have hnum : (c :: rest).takeWhile is_digit_or_dot = [] := by
        simp [List.takeWhile_cons, h1]
      simp [peel, hnum, h2, h3]
    · intro h1 h2 h3 h4
      have hnum : (c :: rest).takeWhile is_digit_or_dot = [] := by
        simp [List.takeWhile_cons, h1]
      have hid : (c :: rest).takeWhile Char.isAlpha
          = c :: rest.takeWhile Char.isAlpha := by
        simp [List.takeWhile_cons, h4]
      simp [peel, hnum, h2, h3, hid]
    · intro h1 h2 h3 h4
      have hnum : (c :: rest).takeWhile is_digit_or_dot = [] := by
        simp [List.takeWhile_cons, h1]
      have hid : (c :: rest).takeWhile Char.isAlpha = [] := by
        simp [List.takeWhile_cons, h4]
      simp [peel, hnum, h2, h3, hid]
  · intro s pre post e h
    exact tokenizeAux_error_last h

/-- C8 witness: the classification instantiated at `'$'` (no class matches)
and at the digit `'1'`. -/
theorem claim8_scanner_classification_witness :
    is_digit_or_dot '$' = false ∧
    peel ['$'] = some (.error (.character (String.mk ['$']))) ∧
    peel ['1', '+'] = some (.ok
      (⟨String.mk (['1', '+'].takeWhile is_digit_or_dot), .number⟩,
       ['1', '+'].dropWhile is_digit_or_dot)) :=
  ⟨rfl,
   (claim8_scanner_classification.2.1 '$' []).2.2.2.2 rfl rfl rfl rfl,
   (claim8_scanner_classification.2.1 '1' ['+']).1 rfl⟩

/-- C9: frame property of the variable mapping: every rule effect that
completes leaves the context's variable mapping unchanged, a successful
`parse` returns the mapping it was given, and a completing `evaluate` adds or
overwrites exactly the names carried by the program's `assign` nodes, every
other key mapping to exactly what it did before. -/
theorem claim9_variable_mapping_frame :
    (∀ r ctx y t ctx2 y2, ruleEffect r ctx y t = .ok (ctx2, y2) →
      ctx2.variables' = ctx.variables') ∧
    (∀ toks m p m', parse toks m = .ok (p, m') → m' = m) ∧
    (∀ p m r m', evaluate p m = some (r, m') →
      (∀ k, k ∉ assignNames p → findVar m' k = findVar m k) ∧
      (∀ k, k ∈ assignNames p → (findVar m' k).isSome = true)) := by
  refine ⟨fun r ctx y t ctx2 y2 h => ruleEffect_variables h, ?_, ?_⟩
  · intro toks m p m' h
    unfold parse at h
    split at h
    · exact absurd h (by simp)
    · rename_i ctx y hps
      split at h
      · exact absurd h (by simp)
      · cases h
        simpa [Context.new] using parseSteps_variables hps
  · intro p m r m' h
    unfold evaluate at h
    split at h
    · rename_i slots v hexec
      split at h
      · cases h
        exact execGo_frame hexec
      · exact absurd h (by simp)
    · exact absurd h (by simp)

/-- C9 witness: the frame property instantiated on the `"x = 5"` line. -/
theorem claim9_variable_mapping_frame_witness :
    parse (tokenize "x = 5") [] = .ok ([.value 5, .assign "x"], []) ∧
    ([] : VarMap) = [] ∧
    evaluate [.value 5, .assign "x"] [] = some (5, [("x", 5)]) ∧
    findVar [("x", 5)] "z" = findVar ([] : VarMap) "z" ∧
    (findVar [("x", 5)] "x").isSome = true :=
  ⟨by with_unfolding_all rfl,
   claim9_variable_mapping_frame.2.1 (tokenize "x = 5") [] [.value 5, .assign "x"] []
     (by with_unfolding_all rfl),
   by with_unfolding_all rfl,
   (claim9_variable_mapping_frame.2.2 [.value 5, .assign "x"] [] 5 [("x", 5)]
     (by with_unfolding_all rfl)).1 "z" (by with_unfolding_all decide),
   (claim9_variable_mapping_frame.2.2 [.value 5, .assign "x"] [] 5 [("x", 5)]
     (by with_unfolding_all rfl)).2 "x" (by with_unfolding_all decide)⟩

/-- C10: the `+`/`-` value prefixes have the lowest precedence: a pending
prefix marker (`Function.precedence` low) is flushed before a new `+` or `-`
binary operator (`precedes low low`) but not before `*`, `/` (`precedes low
medium = false`) or `^` (`precedes low high = false`), so a prefix minus
applies to the entire following product or power: `-2 ^ 2` evaluates to `-4`
(that is `-(2^2)`) and `-2 * 3` to `-6`, while `- 2 + 3` evaluates to `1`. -/
theorem claim10_unary_lowest_precedence :
    Function.precedence .positive = .low ∧
    Function.precedence .negative = .low ∧
    Precedence.precedes .low .low = true ∧
    Precedence.precedes .low .medium = false ∧
    Precedence.precedes .low .high = false ∧
    evalLine "-2 ^ 2" [] = some (-4, []) ∧
    evalLine "-2 * 3" [] = some (-6, []) ∧
    evalLine "- 2 + 3" [] = some (1, []) :=
  ⟨rfl, rfl, rfl, rfl, rfl, by with_unfolding_all rfl, by with_unfolding_all rfl,
   by with_unfolding_all rfl⟩

end CalcRs
